import Mathlib

/-!
Verification of the codecrafters-redis-rust repository: a shallow embedding of
the RESP protocol codec (`src/resp.rs`), the command interpreter and store
(`src/redis.rs`), and the RDB snapshot loader (`src/rdb.rs`), with theorems
settling the specification claims about them.

Wire data and Rust strings are modelled as lists of byte values (`List Nat`).
Fallible Rust code is modelled with `Option`/explicit result types; a Rust
panic (unwrap on `None`, out-of-range slice, `todo!`, `assert!`) is a distinct
outcome from a returned `Err`.
-/

/-- Byte list of an ASCII string literal (each `Char` is one byte). -/
def bs (s : String) : List Nat := s.toList.map Char.toNat

/-- ASCII carriage return. -/
def CR : Nat := 13

/-- ASCII line feed. -/
def LF : Nat := 10

/-- The RESP value type, from `enum Resp` in src/resp.rs.  `Integer` holds an
`i64` (modelled as `Int`; the encoder only ever prints in-range values) and
`BulkString` holds raw `Bytes`.  The `Double(f64)` variant of the source is
not modelled: floating point is outside this embedding, and the decoder's
`,` branch below returns an error accordingly (no theorem touches doubles). -/
inductive Resp where
  | simpleString : List Nat → Resp
  | simpleError : List Nat → Resp
  | integer : Int → Resp
  | bulkString : List Nat → Resp
  | array : List Resp → Resp
  | null : Resp
  | boolean : Bool → Resp

/-- Is `b` an ASCII decimal digit? -/
def isDigit (b : Nat) : Bool := 48 ≤ b && b ≤ 57

/-- Numeric value of a list of ASCII digit bytes, most significant first
(the fold performed by Rust's `str::parse` on the digits). -/
def digitsVal (l : List Nat) : Nat := l.foldl (fun a d => 10 * a + (d - 48)) 0

/-- Helper for `natToBytes`: structurally recursive on `fuel` so that it is
kernel-reducible; `fuel ≥ n` suffices. -/
def ntbAux : Nat → Nat → List Nat → List Nat
  | 0, _, acc => acc
  | _ + 1, 0, acc => acc
  | f + 1, n + 1, acc => ntbAux f ((n + 1) / 10) (((n + 1) % 10 + 48) :: acc)

/-- ASCII decimal rendering of a natural number (Rust `format!("{}", n)`). -/
def natToBytes (n : Nat) : List Nat := if n = 0 then [48] else ntbAux n n []

/-- ASCII decimal rendering of an `i64` (Rust `format!("{}", i)`). -/
def intToBytes (i : Int) : List Nat :=
  if i < 0 then 45 :: natToBytes i.natAbs else natToBytes i.natAbs

/-- Parse a nonempty all-digit byte list (shared core of Rust's
`str::parse::<usize>` / `::<u64>` / `::<i64>`; overflow is not modelled —
every value these theorems parse was printed from an in-range number). -/
def parseDigits (l : List Nat) : Option Nat :=
  if l.isEmpty then none else if l.all isDigit then some (digitsVal l) else none

/-- Rust `str::parse::<usize>` (also `::<u64>`): optional leading `+`, then
one or more ASCII digits. -/
def parseUsize (l : List Nat) : Option Nat :=
  if l.head? = some 43 then parseDigits l.tail else parseDigits l

/-- Rust `str::parse::<i64>`: optional leading `+` or `-` sign, then one or
more ASCII digits. -/
def parseI64 (l : List Nat) : Option Int :=
  if l.head? = some 45 then (parseDigits l.tail).map (fun n => -(n : Int))
  else if l.head? = some 43 then (parseDigits l.tail).map (fun n => (n : Int))
  else (parseDigits l).map (fun n => (n : Int))

/-- Does the byte list contain the two-byte sequence CR LF? -/
def hasCRLF : List Nat → Bool
  | [] => false
  | a :: rest => (a = CR && rest.head? = some LF) || hasCRLF rest

/-- Rust `str::split_once("\r\n")`: split at the first occurrence of CR LF,
returning the part before it and the part after it. -/
def splitCRLF : List Nat → Option (List Nat × List Nat)
  | [] => none
  | a :: rest =>
    if a = CR ∧ rest.head? = some LF then some ([], rest.tail)
    else match splitCRLF rest with
      | some (p, q) => some (a :: p, q)
      | none => none

/-- Rust `str::ends_with("\r\n")`. -/
def endsCRLF (l : List Nat) : Bool := l.reverse.take 2 = [LF, CR]

/-- Is `b` a UTF-8 continuation byte? -/
def utf8Cont (b : Nat) : Bool := 128 ≤ b && b ≤ 191

mutual

/-- UTF-8 validity of a byte list (the success condition of Rust's
`String::from_utf8`): an ASCII byte stands alone, anything else must lead a
well-formed multibyte sequence. -/
def utf8Valid : List Nat → Bool
  | [] => true
  | b :: rest => if b ≤ 127 then utf8Valid rest else utf8ValidMB b rest

/-- A multibyte UTF-8 sequence led by `b`, per RFC 3629: surrogates and
overlong forms rejected, followed by a valid remainder. -/
def utf8ValidMB (b : Nat) (rest : List Nat) : Bool :=
  if 194 ≤ b ∧ b ≤ 223 then
    match rest with
    | c1 :: r => utf8Cont c1 && utf8Valid r
    | [] => false
  else if b = 224 then
    match rest with
    | c1 :: c2 :: r => (160 ≤ c1 && c1 ≤ 191) && utf8Cont c2 && utf8Valid r
    | _ => false
  else if 225 ≤ b ∧ b ≤ 236 then
    match rest with
    | c1 :: c2 :: r => utf8Cont c1 && utf8Cont c2 && utf8Valid r
    | _ => false
  else if b = 237 then
    match rest with
    | c1 :: c2 :: r => (128 ≤ c1 && c1 ≤ 159) && utf8Cont c2 && utf8Valid r
    | _ => false
  else if 238 ≤ b ∧ b ≤ 239 then
    match rest with
    | c1 :: c2 :: r => utf8Cont c1 && utf8Cont c2 && utf8Valid r
    | _ => false
  else if b = 240 then
    match rest with
    | c1 :: c2 :: c3 :: r =>
      (144 ≤ c1 && c1 ≤ 191) && utf8Cont c2 && utf8Cont c3 && utf8Valid r
    | _ => false
  else if 241 ≤ b ∧ b ≤ 243 then
    match rest with
    | c1 :: c2 :: c3 :: r => utf8Cont c1 && utf8Cont c2 && utf8Cont c3 && utf8Valid r
    | _ => false
  else if b = 244 then
    match rest with
    | c1 :: c2 :: c3 :: r =>
      (128 ≤ c1 && c1 ≤ 143) && utf8Cont c2 && utf8Cont c3 && utf8Valid r
    | _ => false
  else false

end

namespace Resp

mutual

/-- `Resp::encoded` together with the per-variant `encode_*` helpers of
src/resp.rs.  `none` models the `Err(())` return: a simple string or simple
error containing CR or LF, or a bulk string whose bytes are not valid UTF-8
(`String::from_utf8` failing). -/
def encoded : Resp → Option (List Nat)
  | .simpleString s =>
    if LF ∈ s ∨ CR ∈ s then none else some (43 :: s ++ [CR, LF])
  | .simpleError s =>
    if LF ∈ s ∨ CR ∈ s then none else some (45 :: s ++ [CR, LF])
  | .integer i => some (58 :: intToBytes i ++ [CR, LF])
  | .bulkString b =>
    if utf8Valid b then some (36 :: natToBytes b.length ++ [CR, LF] ++ b ++ [CR, LF])
    else none
  | .null => some (36 :: 45 :: 49 :: [CR, LF])
  | .array l =>
    match encodedList l with
    | some parts => some (42 :: natToBytes l.length ++ [CR, LF] ++ parts)
    | none => none
  | .boolean b => if b then some [35, 116, CR, LF] else some [35, 102, CR, LF]

/-- The loop of `encode_array`: encode each element in order and concatenate. -/
def encodedList : List Resp → Option (List Nat)
  | [] => some []
  | v :: t =>
    match encoded v with
    | some w =>
      match encodedList t with
      | some parts => some (w ++ parts)
      | none => none
    | none => none

end

end Resp

/-- Result of one of the `decode_*` functions of src/resp.rs, which advance a
`Bytes` cursor: a decoded value together with the bytes after the cursor, a
returned `Err(())`, or a Rust panic (`unwrap` on `None`/`Err`, an
out-of-range `split_at` or `advance`, a usize underflow). -/
inductive DRes where
  | ok : Resp → List Nat → DRes
  | err : DRes
  | panic : DRes

/-- Result of the element loop of `decode_array`. -/
inductive DListRes where
  | okL : List Resp → List Nat → DListRes
  | errL : DListRes
  | panicL : DListRes

namespace Resp

/-- `decode_simple_string` (src/resp.rs:119): advance past `+`, split the
rest at the first CR LF, advance past the prefix and terminator.
`String::from_utf8_lossy` is the identity here: `decode`'s input is a Rust
`&str` (valid UTF-8), and all theorems below instantiate ASCII buffers. -/
def decodeSimpleString (b : List Nat) : DRes :=
  let b' := b.drop 1
  match splitCRLF b' with
  | none => .err
  | some p => .ok (.simpleString p.1) (b'.drop (p.1.length + 2))

/-- `decode_simple_error` (src/resp.rs:129), identical shape. -/
def decodeSimpleError (b : List Nat) : DRes :=
  let b' := b.drop 1
  match splitCRLF b' with
  | none => .err
  | some p => .ok (.simpleError p.1) (b'.drop (p.1.length + 2))

/-- `decode_integer` (src/resp.rs:139): split at CR LF, `parse::<i64>`. -/
def decodeInteger (b : List Nat) : DRes :=
  let b' := b.drop 1
  match splitCRLF b' with
  | none => .err
  | some p =>
    match parseI64 p.1 with
    | none => .err
    | some i => .ok (.integer i) (b'.drop (p.1.length + 2))

/-- `decode_bulk_string` (src/resp.rs:152).  After advancing past `$` the
source takes `split_at(b.len() - 2)` — a usize underflow (and an
out-of-range split) when fewer than two bytes remain, hence `.panic`; it
compares everything but the final two bytes against `"-1"`; on a declared
length of `0` it returns early having consumed only the marker byte; and for
a positive length it takes `split_at(len)` of the text after the first CR LF,
which panics when the buffer is shorter than the declared length. -/
def decodeBulkString (b : List Nat) : DRes :=
  let b' := b.drop 1
  if b'.length < 2 then .panic
  else
    let string := b'.take (b'.length - 2)
    if string = [45, 49] then .ok .null (b'.drop 4)
    else
      match splitCRLF string with
      | none => .err
      | some p =>
        match parseUsize p.1 with
        | none => .err
        | some len =>
          if len = 0 then .ok (.bulkString []) b'
          else if p.2.length < len then .panic
          else .ok (.bulkString (p.2.take len)) (b'.drop (p.1.length + 2 + (len + 2)))

/-- `decode_boolean` (src/resp.rs:199): split at CR LF; `t`/`f` only. -/
def decodeBoolean (b : List Nat) : DRes :=
  let b' := b.drop 1
  match splitCRLF b' with
  | none => .err
  | some p =>
    let rest := b'.drop (p.1.length + 2)
    if p.1 = [116] then .ok (.boolean true) rest
    else if p.1 = [102] then .ok (.boolean false) rest
    else .err

/-- The loop of `decode_array` (src/resp.rs:190): decode `n` elements with
the given element decoder, threading the cursor. -/
def decodeElemsAux (d : List Nat → DRes) : Nat → List Nat → DListRes
  | 0, b => .okL [] b
  | n + 1, b =>
    match d b with
    | .ok v rest =>
      match decodeElemsAux d n rest with
      | .okL vs rest2 => .okL (v :: vs) rest2
      | r => r
    | .err => .errL
    | .panic => .panicL

/-- One step of `decode_bytes` (src/resp.rs:105): `bytes.first().unwrap()`
panics on an empty buffer, then dispatch on the marker byte.  `self` is the
decoder available to `decode_array`'s recursive element loop; it is `none`
only when the fuel of `decodeBytes` is exhausted, which the fuel supplied by
`decode` makes unreachable.  The `,` marker (`decode_double`, an `f64`
parse) is outside this embedding and no theorem touches it. -/
def decodeStep (self : Option (List Nat → DRes)) (b : List Nat) : DRes :=
  match b with
  | [] => .panic
  | c :: _ =>
    if c = 43 then decodeSimpleString b
    else if c = 45 then decodeSimpleError b
    else if c = 58 then decodeInteger b
    else if c = 36 then decodeBulkString b
    else if c = 42 then
      -- decode_array (src/resp.rs:177): split at CR LF, parse the count,
      -- advance, then decode that many elements.
      let b' := b.drop 1
      match splitCRLF b' with
      | none => .err
      | some p =>
        match parseUsize p.1 with
        | none => .err
        | some len =>
          match self with
          | none => .panic
          | some d =>
            match decodeElemsAux d len (b'.drop (p.1.length + 2)) with
            | .okL elems rest => .ok (.array elems) rest
            | .errL => .err
            | .panicL => .panic
    else if c = 35 then decodeBoolean b
    else .err

/-- `decode_bytes` with a structural fuel bounding array-nesting depth. -/
def decodeBytes : Nat → List Nat → DRes
  | 0 => decodeStep none
  | f + 1 => decodeStep (some (decodeBytes f))

/-- Overall outcome of `Resp::decode`: `Ok(value)`, `Err(())`, or a panic. -/
inductive Outcome where
  | ok : Resp → Outcome
  | err : Outcome
  | panic : Outcome

/-- `Resp::decode` (src/resp.rs:95): reject a buffer not ending in CR LF,
then run `decode_bytes`, discarding the final cursor.  The fuel `s.length`
strictly exceeds the achievable array-nesting depth (each nesting level
consumes at least one byte before recursing), so the fuel-exhaustion branch
is unreachable. -/
def decode (s : List Nat) : Outcome :=
  if endsCRLF s then
    match decodeBytes s.length s with
    | .ok r _ => .ok r
    | .err => .err
    | .panic => .panic
  else .err

mutual

/-- The `Display` implementation for `Resp` (src/resp.rs:227), used by
`to_string()` in the interpreter.  `from_utf8_lossy` on a bulk string is the
identity on valid UTF-8 (all theorems instantiate ASCII payloads). -/
def toDisplay : Resp → List Nat
  | .simpleString s => s
  | .simpleError s => s
  | .integer i => intToBytes i
  | .bulkString b => b
  | .array l => 91 :: displayList l ++ [93]
  | .null => bs "null"
  | .boolean b => if b then bs "true" else bs "false"

/-- The array loop of the `Display` implementation: each element followed by
a comma. -/
def displayList : List Resp → List Nat
  | [] => []
  | v :: t => toDisplay v ++ [44] ++ displayList t

end

end Resp

/-- `str::to_lowercase` as the interpreter applies it.  Unicode lowercasing
agrees with this ASCII mapping on ASCII text, and every theorem below
instantiates ASCII bytes. -/
def toLowerBytes (l : List Nat) : List Nat :=
  l.map (fun b => if 65 ≤ b && b ≤ 90 then b + 32 else b)

namespace Redis

/-- `enum RedisValue` (src/redis.rs:14): only the `String` variant exists. -/
inductive RedisValue where
  | string : List Nat → RedisValue

/-- Association-list model of `HashMap`: lookup of `HashMap::get`. -/
def alGet {α : Type} (k : List Nat) : List (List Nat × α) → Option α
  | [] => none
  | (k', v) :: t => if k = k' then some v else alGet k t

/-- `HashMap::insert`: overwrite the existing binding or append a new one. -/
def alInsert {α : Type} (k : List Nat) (v : α) : List (List Nat × α) → List (List Nat × α)
  | [] => [(k, v)]
  | (k', v') :: t => if k = k' then (k, v) :: t else (k', v') :: alInsert k v t

/-- `HashMap::remove` (value discarded): the binding of `k` is gone.  A
`HashMap` holds each key at most once, so dropping every matching pair is
the same as dropping the single entry. -/
def alRemove {α : Type} (k : List Nat) (m : List (List Nat × α)) : List (List Nat × α) :=
  m.filter (fun kv => !decide (kv.1 = k))

/-- The state owned by `struct Redis` (src/redis.rs:18): keyspace, expiry
table (absolute deadlines in milliseconds), and startup configuration. -/
structure RedisState where
  store : List (List Nat × RedisValue)
  expiry_table : List (List Nat × Nat)
  config : List (List Nat × List Nat)

/-- `enum Command` (src/redis.rs:231). -/
inductive Command where
  | ping : Command
  | echo : List Nat → Command
  | set : List Nat → List Nat → List (List Nat × Option (List Nat)) → Command
  | get : List Nat → Command
  | configGet : List Nat → Command
  | keys : List Nat → Command
  | notImplemented : List Nat → Command

/-- Result of `Redis::parse_command`: a command, or a Rust panic (an
out-of-bounds `args[i]`, an `unwrap` on a missing iterator element, or a
`todo!`). -/
inductive PRes where
  | ok : Command → PRes
  | panic : PRes

/-- The option loop of `Redis::parse_set_command` (src/redis.rs:133): each
recognized `px` consumes the following argument (`unwrap` panics when it is
missing); any other option name hits `todo!` — a panic. -/
def parseSetOptions : List Resp → Option (List (List Nat × Option (List Nat)))
  | [] => some []
  | a :: rest =>
    if Resp.toDisplay a = bs "px" then
      match rest with
      | [] => none
      | v :: rest' =>
        match parseSetOptions rest' with
        | some opts => some ((bs "px", some (Resp.toDisplay v)) :: opts)
        | none => none
    else none

/-- `Redis::parse_set_command` (src/redis.rs:126): `next().unwrap()` for key
and value panics when fewer than two arguments are present. -/
def parse_set_command (args : List Resp) : PRes :=
  match args with
  | k :: v :: rest =>
    match parseSetOptions rest with
    | some opts => .ok (.set (Resp.toDisplay k) (Resp.toDisplay v) opts)
    | none => .panic
  | _ => .panic

/-- `Redis::parse_command` (src/redis.rs:91): lowercase the displayed command
name, dispatch on the fixed table; required arguments are read with
`args[i]`, which panics when absent; an unknown `config` subcommand hits
`todo!`; any unmatched name becomes `NotImplemented`. -/
def parse_command (command : Resp) (args : List Resp) : PRes :=
  let cmd := toLowerBytes (Resp.toDisplay command)
  if cmd = bs "ping" then .ok .ping
  else if cmd = bs "echo" then
    match args.head? with
    | none => .panic
    | some a => .ok (.echo (Resp.toDisplay a))
  else if cmd = bs "set" then parse_set_command args
  else if cmd = bs "get" then
    match args.head? with
    | none => .panic
    | some a => .ok (.get (Resp.toDisplay a))
  else if cmd = bs "config" then
    match args.head? with
    | none => .panic
    | some sub =>
      if Resp.toDisplay sub = bs "get" then
        match args.get? 1 with
        | none => .panic
        | some k => .ok (.configGet (Resp.toDisplay k))
      else .panic
  else if cmd = bs "keys" then
    match args.head? with
    | none => .panic
    | some a => .ok (.keys (Resp.toDisplay a))
  else .ok (.notImplemented cmd)

/-- The option loop of `Redis::set` (src/redis.rs:186): each `px` option
re-assigns the expiry from `value.unwrap().parse::<u64>().unwrap()` (either
unwrap panics — `none`); any other recorded option name hits `todo!`. -/
def optionsExpiry : Option Nat → List (List Nat × Option (List Nat)) → Option (Option Nat)
  | acc, [] => some acc
  | _, (name, v) :: rest =>
    if name = bs "px" then
      match v with
      | none => none
      | some bytes =>
        match parseUsize bytes with
        | none => none
        | some ms => optionsExpiry (some ms) rest
    else none

/-- `Redis::set` (src/redis.rs:184).  `ms_since_epoch()` is passed in as the
explicit parameter `now` (milliseconds).  With a `px` expiry the absolute
deadline `now + ms` is inserted into the expiry table, otherwise any
existing deadline is removed; the key is then inserted into the store and
`+OK` returned.  `none` models the panics of the option loop. -/
def set (st : RedisState) (now : Nat) (key value : List Nat)
    (options : List (List Nat × Option (List Nat))) : Option (Resp × RedisState) :=
  match optionsExpiry none options with
  | none => none
  | some expiryOpt =>
    let st' : RedisState :=
      match expiryOpt with
      | some ms => { st with expiry_table := alInsert key (now + ms) st.expiry_table }
      | none => { st with expiry_table := alRemove key st.expiry_table }
    some (.simpleString (bs "OK"),
      { st' with store := alInsert key (.string value) st'.store })

/-- `Redis::get` (src/redis.rs:212): when the expiry table holds a deadline
strictly below `now`, reply Null without touching the store; otherwise look
the key up in the store. -/
def get (st : RedisState) (now : Nat) (key : List Nat) : Resp :=
  let expired :=
    match alGet key st.expiry_table with
    | some expiry => decide (expiry < now)
    | none => false
  if expired then .null
  else
    match alGet key st.store with
    | some (.string v) => .bulkString v
    | none => .null

/-- `Redis::handle_command` (src/redis.rs:150), returning the reply and the
resulting state (`&mut self` made explicit); `none` models the panics
reachable through `Redis::set`. -/
def handle_command (st : RedisState) (now : Nat) : Command → Option (Resp × RedisState)
  | .ping => some (.simpleString (bs "PONG"), st)
  | .echo message => some (.bulkString message, st)
  | .set key value options => set st now key value options
  | .get key => some (get st now key, st)
  | .configGet key =>
    match alGet key st.config with
    | some v => some (.array [.bulkString key, .bulkString v], st)
    | none => some (.null, st)
  | .keys _ => some (.array (st.store.map (fun kv => Resp.bulkString kv.1)), st)
  | .notImplemented cmd =>
    some (.simpleError (bs "ERR command '" ++ cmd ++ bs "' not implemented yet"), st)

/-- `Redis::handle_message` (src/redis.rs:70): lowercase the ENTIRE raw
message, decode it (`unwrap` — a decode error or panic is a process panic,
`none` here), require a nonempty array (`panic!("Invalid message")`
otherwise), parse and handle the command, and encode the reply (`unwrap`).
Returns the encoded reply and the resulting state. -/
def handle_message (st : RedisState) (now : Nat) (message : List Nat) :
    Option (List Nat × RedisState) :=
  match Resp.decode (toLowerBytes message) with
  | .ok (.array (command :: args)) =>
    (match parse_command command args with
     | .panic => none
     | .ok c =>
       match handle_command st now c with
       | none => none
       | some (resp, st') =>
         match Resp.encoded resp with
         | none => none
         | some out => some (out, st'))
  | .ok (.array []) => none
  | .ok _ => none
  | .err => none
  | .panic => none

end Redis

namespace Rdb

/-- `enum LengthEncoding` (src/rdb.rs:118). -/
inductive LengthEncoding where
  | sixBit : Nat → LengthEncoding
  | fourteenBit : Nat → LengthEncoding
  | thirtyTwoBit : Nat → LengthEncoding
  | encoded : Nat → LengthEncoding

/-- `Rdb::read_length_encoding` (src/rdb.rs:73): dispatch on the top two
bits of the first byte, advancing the cursor; `none` models an out-of-range
slice index (and the `unreachable!` arm). -/
def read_length_encoding (slice : List Nat) (seek : Nat) : Option (LengthEncoding × Nat) :=
  match slice.get? seek with
  | none => none
  | some first_byte =>
    let seek := seek + 1
    match first_byte / 64 with
    | 0 => some (.sixBit (first_byte % 64), seek)
    | 1 =>
      match slice.get? seek with
      | none => none
      | some second_byte => some (.fourteenBit ((first_byte % 64) * 256 + second_byte), seek + 1)
    | 2 =>
      match slice.get? seek, slice.get? (seek + 1), slice.get? (seek + 2), slice.get? (seek + 3) with
      | some b1, some b2, some b3, some b4 =>
        some (.thirtyTwoBit (b1 + b2 * 256 + b3 * 65536 + b4 * 16777216), seek + 4)
      | _, _, _, _ => none
    | 3 => some (.encoded (first_byte % 64), seek)
    | _ => none

/-- `LengthEncoding::decode_from` (src/rdb.rs:126), returning the decoded
text and the new cursor.  The three length forms take `length` bytes at the
cursor (`from_utf8_lossy`, identity on the ASCII bytes the theorems use).
The `Encoded` integer forms read their literal bytes at `slice[0]`,
`slice[1]`, ... — the START of the buffer, not the cursor — exactly as the
source does, render them as decimal text, and advance the cursor by the
width; format 3 is `todo!` and anything else `unreachable!` (panics, `none`). -/
def decode_from (le : LengthEncoding) (slice : List Nat) (seek : Nat) : Option (List Nat × Nat) :=
  match le with
  | .sixBit length | .fourteenBit length | .thirtyTwoBit length =>
    if seek + length ≤ slice.length then some ((slice.drop seek).take length, seek + length)
    else none
  | .encoded format =>
    match format with
    | 0 =>
      match slice.get? 0 with
      | none => none
      | some integer => some (natToBytes integer, seek + 1)
    | 1 =>
      match slice.get? 0, slice.get? 1 with
      | some b0, some b1 => some (natToBytes (b0 * 256 + b1), seek + 2)
      | _, _ => none
    | 2 =>
      match slice.get? 0, slice.get? 1, slice.get? 2, slice.get? 3 with
      | some b0, some b1, some b2, some b3 =>
        some (natToBytes (b0 + b1 * 256 + b2 * 65536 + b3 * 16777216), seek + 4)
      | _, _, _, _ => none
    | _ => none

/-- Read one length encoding and decode its string, as each opcode arm of
`Rdb::load_from_path` does. -/
def readString (slice : List Nat) (seek : Nat) : Option (List Nat × Nat) :=
  match read_length_encoding slice seek with
  | none => none
  | some (le, seek') => decode_from le slice seek'

/-- The opcode loop of `Rdb::load_from_path` (src/rdb.rs:28), structurally
recursive on a fuel that `load_from_path` sets to the slice length (the
cursor advances by at least one byte per iteration, so that fuel cannot run
out; the fuel-exhaustion branch returns `none`).  Opcodes: `0xFF` ends the
file; `0xFA` reads and discards two strings; `0xFE` reads and discards one;
`0xFB` skips two raw bytes; `0x00` reads a key and a value and inserts them;
anything else is `todo!` — a panic (`none`). -/
def rdbLoop : Nat → List Nat → Nat → List (List Nat × Redis.RedisValue) →
    Option (List (List Nat × Redis.RedisValue))
  | 0, _, _, _ => none
  | f + 1, slice, seek, store =>
    if slice.length ≤ seek then some store
    else
      match slice.get? seek with
      | none => none
      | some opcode =>
        let seek := seek + 1
        if opcode = 255 then some store
        else if opcode = 250 then
          match readString slice seek with
          | none => none
          | some (_, seek) =>
            match readString slice seek with
            | none => none
            | some (_, seek) => rdbLoop f slice seek store
        else if opcode = 254 then
          match readString slice seek with
          | none => none
          | some (_, seek) => rdbLoop f slice seek store
        else if opcode = 251 then
          match slice.get? seek, slice.get? (seek + 1) with
          | some _, some _ => rdbLoop f slice (seek + 2) store
          | _, _ => none
        else if opcode = 0 then
          match readString slice seek with
          | none => none
          | some (key, seek) =>
            match readString slice seek with
            | none => none
            | some (value, seek) =>
              rdbLoop f slice seek (Redis.alInsert key (.string value) store)
        else none

/-- `Rdb::load_from_path` (src/rdb.rs:8).  The argument is the file's
contents, `none` when the file does not exist (in which case the empty store
is returned, not an error).  A present file must start with the `REDIS`
magic (`assert!`) followed by four bytes of version text whose
`std::str::from_utf8` must succeed; then the opcode loop runs from offset 9.
The result `none` models a Rust panic. -/
def load_from_path (file : Option (List Nat)) : Option (List (List Nat × Redis.RedisValue)) :=
  match file with
  | none => some []
  | some slice =>
    if slice.take 5 = bs "REDIS" then
      if 9 ≤ slice.length then
        if utf8Valid ((slice.drop 5).take 4) then rdbLoop slice.length slice 9 []
        else none
      else none
    else none

/-- Modelled from the spec: the pair `(Keyspace, ExpiryTable)` that snapshot
loading hands the store.  src/redis.rs:45 declares `load_store_from_path` to
return this pair from `Rdb::load_from_path`, but src/rdb.rs only produces
the keyspace; per the spec, a string record is inserted "with no expiry" and
no handled opcode records an expiry, so the expiry component is empty. -/
def load_pair (file : Option (List Nat)) :
    Option (List (List Nat × Redis.RedisValue) × List (List Nat × Nat)) :=
  (load_from_path file).map (fun s => (s, []))

end Rdb

/-! ### Structural measures on `Resp` and the round-trip goodness predicate -/

mutual

/-- Size measure for strong induction over the nested `Resp` type. -/
def rsize : Resp → Nat
  | .array l => 1 + rsizeL l
  | _ => 1

/-- Total size of a list of values. -/
def rsizeL : List Resp → Nat
  | [] => 0
  | v :: t => rsize v + rsizeL t

end

mutual

/-- Array-nesting depth of a value (the fuel `decodeBytes` consumes). -/
def rdepth : Resp → Nat
  | .array l => 1 + rdepthL l
  | _ => 0

/-- Maximum depth over a list of values. -/
def rdepthL : List Resp → Nat
  | [] => 0
  | v :: t => max (rdepth v) (rdepthL t)

end

mutual

/-- Values whose encoding the decoder reads back intact in ANY position:
no `Null` and no empty bulk string anywhere (the decoder consumes only the
`$` byte of an empty bulk string, and recognizes the `-1` null form only at
the very end of the buffer, so either corrupts an enclosing array). -/
def strictGood : Resp → Bool
  | .simpleString _ => true
  | .simpleError _ => true
  | .integer _ => true
  | .bulkString b => !b.isEmpty
  | .array l => strictGoodL l
  | .null => false
  | .boolean _ => true

/-- `strictGood` on every element. -/
def strictGoodL : List Resp → Bool
  | [] => true
  | v :: t => strictGood v && strictGoodL t

end

/-- The function `decode_array` recurses with: `decodeBytes` at the next
smaller fuel, or nothing when the fuel is exhausted. -/
def decodeSelf : Nat → Option (List Nat → DRes)
  | 0 => none
  | f + 1 => some (Resp.decodeBytes f)


/-! ### Decimal rendering and parsing lemmas -/

theorem ntbAux_zero (f : Nat) (acc : List Nat) : ntbAux f 0 acc = acc := by
  cases f <;> rfl

theorem ntbAux_eq : ∀ f n acc, 0 < n → n ≤ f →
    ntbAux f n acc = ((Nat.digits 10 n).reverse.map (fun d => d + 48)) ++ acc := by
  intro f
  induction f with
  | zero => intro n acc hn hf; omega
  | succ f ih =>
    intro n acc hn hf
    obtain ⟨m, rfl⟩ : ∃ m, n = m + 1 := ⟨n - 1, by omega⟩
    show ntbAux f ((m + 1) / 10) (((m + 1) % 10 + 48) :: acc) = _
    rw [Nat.digits_def' (by norm_num : 1 < 10) hn]
    by_cases h10 : (m + 1) / 10 = 0
    · rw [h10, ntbAux_zero, Nat.digits_zero]
      simp
    · rw [ih ((m + 1) / 10) _ (by omega) (by
        have := Nat.div_lt_self hn (by norm_num : 1 < 10)
        omega)]
      simp

theorem natToBytes_eq_digits (n : Nat) (hn : 0 < n) :
    natToBytes n = (Nat.digits 10 n).reverse.map (fun d => d + 48) := by
  unfold natToBytes
  rw [if_neg (by omega)]
  rw [ntbAux_eq n n [] hn le_rfl, List.append_nil]

theorem natToBytes_all_digits (n : Nat) : ∀ b ∈ natToBytes n, isDigit b = true := by
  by_cases hn : n = 0
  · subst hn; intro b hb; simp [natToBytes] at hb; subst hb; rfl
  · rw [natToBytes_eq_digits n (by omega)]
    intro b hb
    simp only [List.mem_map, List.mem_reverse] at hb
    obtain ⟨d, hd, rfl⟩ := hb
    have := Nat.digits_lt_base (by norm_num : 1 < 10) hd
    simp [isDigit]
    omega

theorem natToBytes_ne_nil (n : Nat) : natToBytes n ≠ [] := by
  by_cases hn : n = 0
  · subst hn; simp [natToBytes]
  · rw [natToBytes_eq_digits n (by omega)]
    simp [Nat.digits_ne_nil_iff_ne_zero.mpr hn]

theorem foldr_eq_ofDigits : ∀ l : List Nat,
    l.foldr (fun d a => 10 * a + d) 0 = Nat.ofDigits 10 l := by
  intro l
  induction l with
  | nil => simp [Nat.ofDigits]
  | cons d t ih =>
    simp only [List.foldr_cons, ih]
    rw [Nat.ofDigits_cons]
    omega

theorem digitsVal_natToBytes (n : Nat) : digitsVal (natToBytes n) = n := by
  by_cases hn : n = 0
  · subst hn; rfl
  · rw [natToBytes_eq_digits n (by omega)]
    unfold digitsVal
    rw [List.foldl_map, List.foldl_reverse]
    have : ∀ l : List Nat,
        l.foldr (fun x y => 10 * y + (x + 48 - 48)) 0 = l.foldr (fun d a => 10 * a + d) 0 := by
      intro l; induction l with
      | nil => rfl
      | cons d t ih => simp only [List.foldr_cons, ih]; omega
    rw [this, foldr_eq_ofDigits, Nat.ofDigits_digits]

theorem parseDigits_natToBytes (n : Nat) : parseDigits (natToBytes n) = some n := by
  unfold parseDigits
  rw [if_neg (by simp [List.isEmpty_iff, natToBytes_ne_nil])]
  rw [if_pos (by rw [List.all_eq_true]; exact natToBytes_all_digits n)]
  rw [digitsVal_natToBytes]

theorem natToBytes_head_digit (n : Nat) :
    ∃ d t, natToBytes n = d :: t ∧ isDigit d = true := by
  obtain ⟨d, t, h⟩ := List.exists_cons_of_ne_nil (natToBytes_ne_nil n)
  exact ⟨d, t, h, natToBytes_all_digits n d (h ▸ List.mem_cons_self d t)⟩

theorem parseUsize_natToBytes (n : Nat) : parseUsize (natToBytes n) = some n := by
  obtain ⟨d, t, heq, hd⟩ := natToBytes_head_digit n
  have hd' : 48 ≤ d ∧ d ≤ 57 := by simpa [isDigit] using hd
  unfold parseUsize
  rw [heq]
  rw [if_neg (by simp; omega)]
  rw [← heq, parseDigits_natToBytes]

theorem parseI64_intToBytes (i : Int) : parseI64 (intToBytes i) = some i := by
  unfold intToBytes parseI64
  by_cases hi : i < 0
  · rw [if_pos hi]
    simp [parseDigits_natToBytes]
    rw [abs_of_neg hi]
    ring
  · rw [if_neg hi]
    obtain ⟨d, t, heq, hd⟩ := natToBytes_head_digit i.natAbs
    have hd' : 48 ≤ d ∧ d ≤ 57 := by simpa [isDigit] using hd
    rw [heq]
    rw [if_neg (by simp; omega), if_neg (by simp; omega), ← heq, parseDigits_natToBytes]
    simp
    omega

/-! ### CR LF splitting lemmas -/

theorem hasCRLF_of_no_cr (l : List Nat) (h : ∀ b ∈ l, b ≠ CR) : hasCRLF l = false := by
  induction l with
  | nil => rfl
  | cons a t ih =>
    unfold hasCRLF
    rw [ih (fun b hb => h b (List.mem_cons_of_mem a hb))]
    have : a ≠ CR := h a (List.mem_cons_self a t)
    simp [this]

theorem hasCRLF_natToBytes (n : Nat) : hasCRLF (natToBytes n) = false := by
  refine hasCRLF_of_no_cr _ (fun b hb => ?_)
  have := natToBytes_all_digits n b hb
  simp only [isDigit, Bool.and_eq_true, decide_eq_true_eq] at this
  simp only [CR]
  omega

theorem hasCRLF_intToBytes (i : Int) : hasCRLF (intToBytes i) = false := by
  refine hasCRLF_of_no_cr _ (fun b hb => ?_)
  unfold intToBytes at hb
  by_cases hi : i < 0
  · rw [if_pos hi] at hb
    rcases List.mem_cons.mp hb with h45 | hmem
    · subst h45; simp [CR]
    · have := natToBytes_all_digits _ b hmem
      simp only [isDigit, Bool.and_eq_true, decide_eq_true_eq] at this
      simp only [CR]; omega
  · rw [if_neg hi] at hb
    have := natToBytes_all_digits _ b hb
    simp only [isDigit, Bool.and_eq_true, decide_eq_true_eq] at this
    simp only [CR]; omega

theorem splitCRLF_append (s t : List Nat) (h : hasCRLF s = false) :
    splitCRLF (s ++ CR :: LF :: t) = some (s, t) := by
  induction s with
  | nil =>
    show splitCRLF (CR :: LF :: t) = some ([], t)
    unfold splitCRLF
    rw [if_pos (by simp)]
    rfl
  | cons a s' ih =>
    unfold hasCRLF at h
    simp only [Bool.or_eq_false_iff, Bool.and_eq_false_iff] at h
    obtain ⟨hhead, htail⟩ := h
    show splitCRLF (a :: (s' ++ CR :: LF :: t)) = some (a :: s', t)
    unfold splitCRLF
    rw [if_neg ?_]
    · rw [ih htail]
    · intro ⟨ha, hb⟩
      subst ha
      rcases hhead with h1 | h2
      · simp at h1
      · cases s' with
        | nil => simp at hb; exact absurd hb.symm (by simp [CR, LF])
        | cons b s'' => simp at hb h2; exact h2 (by omega)

/-! ### Structural measure lemmas -/

theorem rsize_pos (v : Resp) : 1 ≤ rsize v := by
  cases v <;> unfold rsize <;> omega

theorem rsizeL_mem (v : Resp) : ∀ l : List Resp, v ∈ l → rsize v ≤ rsizeL l := by
  intro l hl
  induction l with
  | nil => cases hl
  | cons a t ih =>
    rcases List.mem_cons.mp hl with rfl | hmem
    · unfold rsizeL; omega
    · have := ih hmem
      unfold rsizeL; omega

theorem rdepthL_mem (v : Resp) : ∀ l : List Resp, v ∈ l → rdepth v ≤ rdepthL l := by
  intro l hl
  induction l with
  | nil => cases hl
  | cons a t ih =>
    rcases List.mem_cons.mp hl with rfl | hmem
    · have h0 : rdepthL (v :: t) = max (rdepth v) (rdepthL t) := rfl
      omega
    · have h0 : rdepthL (a :: t) = max (rdepth a) (rdepthL t) := rfl
      have h1 := ih hmem
      omega

theorem strictGoodL_mem (v : Resp) : ∀ l : List Resp, strictGoodL l = true → v ∈ l →
    strictGood v = true := by
  intro l hg hl
  induction l with
  | nil => cases hl
  | cons a t ih =>
    unfold strictGoodL at hg
    rw [Bool.and_eq_true] at hg
    rcases List.mem_cons.mp hl with rfl | hmem
    · exact hg.1
    · exact ih hg.2 hmem

/-! ### Shapes of the encoder output -/

theorem drop_past_crlf (s rest : List Nat) :
    (s ++ CR :: LF :: rest).drop (s.length + 2) = rest := by
  have h1 : s ++ CR :: LF :: rest = (s ++ [CR, LF]) ++ rest := by simp
  rw [h1]
  have h2 := List.drop_left (s ++ [CR, LF]) rest
  simpa using h2

theorem endsCRLF_append (u : List Nat) : endsCRLF (u ++ [CR, LF]) = true := by
  simp [endsCRLF, List.reverse_append]

theorem encodedList_shape : ∀ (t : List Resp) (v0 : Resp) (parts : List Nat),
    (∀ v ∈ v0 :: t, ∀ w, Resp.encoded v = some w → ∃ u, w = u ++ [CR, LF]) →
    Resp.encodedList (v0 :: t) = some parts → ∃ u, parts = u ++ [CR, LF] := by
  intro t
  induction t with
  | nil =>
    intro v0 parts helem hl
    unfold Resp.encodedList at hl
    cases hv0 : Resp.encoded v0 with
    | none => rw [hv0] at hl; cases hl
    | some w0 =>
      rw [hv0] at hl
      unfold Resp.encodedList at hl
      injection hl with h2
      obtain ⟨u, hu⟩ := helem v0 (by simp) w0 hv0
      exact ⟨u, by simp [← h2, hu]⟩
  | cons v1 t' iht =>
    intro v0 parts helem hl
    unfold Resp.encodedList at hl
    cases hv0 : Resp.encoded v0 with
    | none => rw [hv0] at hl; cases hl
    | some w0 =>
      rw [hv0] at hl
      cases hrest : Resp.encodedList (v1 :: t') with
      | none => rw [hrest] at hl; cases hl
      | some prest =>
        rw [hrest] at hl
        injection hl with h2
        obtain ⟨u, hu⟩ :=
          iht v1 prest (fun v hv => helem v (List.mem_cons_of_mem v0 hv)) hrest
        exact ⟨w0 ++ u, by simp [← h2, hu]⟩

theorem encoded_shape : ∀ n v, rsize v ≤ n → ∀ w, Resp.encoded v = some w →
    ∃ u, w = u ++ [CR, LF] := by
  intro n
  induction n with
  | zero => intro v hv; have := rsize_pos v; omega
  | succ n ih =>
    intro v hv w hw
    cases v with
    | simpleString s =>
      unfold Resp.encoded at hw
      split at hw
      · cases hw
      · exact ⟨43 :: s, by injection hw with h; simp [← h]⟩
    | simpleError s =>
      unfold Resp.encoded at hw
      split at hw
      · cases hw
      · exact ⟨45 :: s, by injection hw with h; simp [← h]⟩
    | integer i =>
      unfold Resp.encoded at hw
      exact ⟨58 :: intToBytes i, by injection hw with h; simp [← h]⟩
    | bulkString b =>
      unfold Resp.encoded at hw
      split at hw
      · exact ⟨36 :: natToBytes b.length ++ [CR, LF] ++ b,
          by injection hw with h; simp [← h]⟩
      · cases hw
    | null =>
      exact ⟨[36, 45, 49], by injection hw with h; simp [← h]⟩
    | boolean b =>
      unfold Resp.encoded at hw
      cases b
      · exact ⟨[35, 102], by injection hw with h; simp [← h]⟩
      · exact ⟨[35, 116], by injection hw with h; simp [← h]⟩
    | array l =>
      unfold Resp.encoded at hw
      cases hl : Resp.encodedList l with
      | none => rw [hl] at hw; cases hw
      | some parts =>
        rw [hl] at hw
        injection hw with h
        cases l with
        | nil =>
          unfold Resp.encodedList at hl
          injection hl with h2
          exact ⟨42 :: natToBytes 0, by simp [← h, ← h2]⟩
        | cons v0 t =>
          have helem : ∀ v2 ∈ v0 :: t, ∀ w1, Resp.encoded v2 = some w1 →
              ∃ u, w1 = u ++ [CR, LF] := by
            intro v2 hv2 w1 hw1
            refine ih v2 ?_ w1 hw1
            have h1 := rsizeL_mem v2 (v0 :: t) hv2
            unfold rsize at hv
            omega
          obtain ⟨u, hu⟩ := encodedList_shape t v0 parts helem hl
          exact ⟨42 :: natToBytes (v0 :: t).length ++ [CR, LF] ++ u,
            by simp [← h, hu]⟩

theorem encoded_endsCRLF (v : Resp) (w : List Nat) (hw : Resp.encoded v = some w) :
    endsCRLF w = true := by
  obtain ⟨u, hu⟩ := encoded_shape (rsize v) v le_rfl w hw
  rw [hu]
  exact endsCRLF_append u

theorem encodedList_depth : ∀ (l : List Resp) (parts : List Nat),
    (∀ v ∈ l, ∀ w, Resp.encoded v = some w → rdepth v ≤ w.length) →
    Resp.encodedList l = some parts → rdepthL l ≤ parts.length := by
  intro l
  induction l with
  | nil =>
    intro parts _ hl
    unfold Resp.encodedList at hl
    injection hl with h
    rw [← h]
    exact le_refl 0
  | cons v0 t ih =>
    intro parts helem hl
    unfold Resp.encodedList at hl
    cases hv0 : Resp.encoded v0 with
    | none => rw [hv0] at hl; cases hl
    | some w0 =>
      rw [hv0] at hl
      cases hrest : Resp.encodedList t with
      | none => rw [hrest] at hl; cases hl
      | some prest =>
        rw [hrest] at hl
        injection hl with h
        have h1 := helem v0 (by simp) w0 hv0
        have h2 := ih prest (fun v hv => helem v (List.mem_cons_of_mem v0 hv)) hrest
        have h0 : rdepthL (v0 :: t) = max (rdepth v0) (rdepthL t) := rfl
        rw [← h, List.length_append]
        omega

theorem encoded_depth_le : ∀ n v, rsize v ≤ n → ∀ w, Resp.encoded v = some w →
    rdepth v ≤ w.length := by
  intro n
  induction n with
  | zero => intro v hv; have := rsize_pos v; omega
  | succ n ih =>
    intro v hv w hw
    cases v with
    | array l =>
      unfold Resp.encoded at hw
      cases hl : Resp.encodedList l with
      | none => rw [hl] at hw; cases hw
      | some parts =>
        rw [hl] at hw
        injection hw with h
        have helem : ∀ v2 ∈ l, ∀ w1, Resp.encoded v2 = some w1 → rdepth v2 ≤ w1.length := by
          intro v2 hv2 w1 hw1
          refine ih v2 ?_ w1 hw1
          have h1 := rsizeL_mem v2 l hv2
          unfold rsize at hv
          omega
        have h2 := encodedList_depth l parts helem hl
        have h0 : rdepth (Resp.array l) = 1 + rdepthL l := rfl
        rw [← h]
        simp only [List.length_cons, List.length_append]
        omega
    | simpleString s => have : rdepth (Resp.simpleString s) = 0 := rfl; omega
    | simpleError s => have : rdepth (Resp.simpleError s) = 0 := rfl; omega
    | integer i => have : rdepth (Resp.integer i) = 0 := rfl; omega
    | bulkString b => have : rdepth (Resp.bulkString b) = 0 := rfl; omega
    | null => have : rdepth Resp.null = 0 := rfl; omega
    | boolean b => have : rdepth (Resp.boolean b) = 0 := rfl; omega

/-! ### The decoder consumes exactly what the encoder produced (leaf cases) -/

theorem decodeStep_simpleString (self : Option (List Nat → DRes)) (s rest : List Nat)
    (hcr : CR ∉ s) :
    Resp.decodeStep self (43 :: (s ++ CR :: LF :: rest)) = .ok (.simpleString s) rest := by
  have hsplit := splitCRLF_append s rest (hasCRLF_of_no_cr s (fun b hb h => hcr (h ▸ hb)))
  unfold Resp.decodeStep
  norm_num
  unfold Resp.decodeSimpleString
  simp only [List.drop_succ_cons, List.drop_zero]
  rw [hsplit]
  simp [drop_past_crlf]

theorem decodeStep_simpleError (self : Option (List Nat → DRes)) (s rest : List Nat)
    (hcr : CR ∉ s) :
    Resp.decodeStep self (45 :: (s ++ CR :: LF :: rest)) = .ok (.simpleError s) rest := by
  have hsplit := splitCRLF_append s rest (hasCRLF_of_no_cr s (fun b hb h => hcr (h ▸ hb)))
  unfold Resp.decodeStep
  norm_num
  unfold Resp.decodeSimpleError
  simp only [List.drop_succ_cons, List.drop_zero]
  rw [hsplit]
  simp [drop_past_crlf]

theorem decodeStep_integer (self : Option (List Nat → DRes)) (i : Int) (rest : List Nat) :
    Resp.decodeStep self (58 :: (intToBytes i ++ CR :: LF :: rest)) = .ok (.integer i) rest := by
  have hsplit := splitCRLF_append (intToBytes i) rest (hasCRLF_intToBytes i)
  unfold Resp.decodeStep
  norm_num
  unfold Resp.decodeInteger
  simp only [List.drop_succ_cons, List.drop_zero]
  rw [hsplit]
  simp [parseI64_intToBytes, drop_past_crlf]

theorem decodeBulkString_generic (D s rest : List Nat)
    (hD : hasCRLF D = false) (hDhead : ∃ d0 t0, D = d0 :: t0 ∧ isDigit d0 = true)
    (hparse : parseUsize D = some s.length) (hne : s ≠ []) :
    Resp.decodeBulkString (36 :: (D ++ CR :: LF :: (s ++ CR :: LF :: rest))) =
      .ok (.bulkString s) rest := by
  obtain ⟨d0, t0, hD0, hd0⟩ := hDhead
  have hd0' : 48 ≤ d0 ∧ d0 ≤ 57 := by simpa [isDigit] using hd0
  have hne0 : ¬(s.length = 0) := by simpa using hne
  unfold Resp.decodeBulkString
  simp only [List.drop_succ_cons, List.drop_zero]
  have hlen : (D ++ CR :: LF :: (s ++ CR :: LF :: rest)).length
      = D.length + s.length + rest.length + 4 := by simp; omega
  rw [if_neg (by omega)]
  have htake : (D ++ CR :: LF :: (s ++ CR :: LF :: rest)).take
      ((D ++ CR :: LF :: (s ++ CR :: LF :: rest)).length - 2)
      = D ++ CR :: LF :: (s ++ (CR :: LF :: rest).take rest.length) := by
    have e1 : D ++ CR :: LF :: (s ++ CR :: LF :: rest)
        = (D ++ [CR, LF]) ++ (s ++ CR :: LF :: rest) := by simp
    rw [e1]
    have e2 : ((D ++ [CR, LF]) ++ (s ++ CR :: LF :: rest)).length - 2
        = (D ++ [CR, LF]).length + (s.length + rest.length) := by simp; omega
    rw [e2, List.take_append]
    have e3 : (s.length : Nat) + rest.length = s.length + rest.length := rfl
    rw [List.take_append]
    simp
  rw [htake]
  rw [if_neg (by
    intro h
    have hh := congrArg List.head? h
    rw [hD0] at hh
    simp only [List.cons_append, List.head?_cons] at hh
    have : d0 = 45 := by simpa using hh
    omega)]
  rw [splitCRLF_append D (s ++ (CR :: LF :: rest).take rest.length) hD]
  simp only [hparse]
  rw [if_neg hne0]
  rw [if_neg (by simp [List.length_append])]
  rw [List.take_left]
  have hdrop : (D ++ CR :: LF :: (s ++ CR :: LF :: rest)).drop
      (D.length + 2 + (s.length + 2)) = rest := by
    have e : D ++ CR :: LF :: (s ++ CR :: LF :: rest)
        = ((D ++ [CR, LF]) ++ (s ++ [CR, LF])) ++ rest := by simp
    rw [e]
    have e2 : D.length + 2 + (s.length + 2) = ((D ++ [CR, LF]) ++ (s ++ [CR, LF])).length := by
      simp
      omega
    rw [e2, List.drop_left]
  rw [hdrop]

theorem decodeStep_bulkString (self : Option (List Nat → DRes)) (s rest : List Nat)
    (hne : s ≠ []) :
    Resp.decodeStep self
      (36 :: (natToBytes s.length ++ CR :: LF :: (s ++ CR :: LF :: rest))) =
      .ok (.bulkString s) rest := by
  unfold Resp.decodeStep
  norm_num
  exact decodeBulkString_generic (natToBytes s.length) s rest
    (hasCRLF_natToBytes s.length) (natToBytes_head_digit s.length)
    (parseUsize_natToBytes s.length) hne

theorem decodeStep_boolean (self : Option (List Nat → DRes)) (b : Bool) (rest : List Nat) :
    Resp.decodeStep self (35 :: (if b then 116 else 102) :: CR :: LF :: rest) =
      .ok (.boolean b) rest := by
  cases b
  · rfl
  · rfl

theorem decodeBytes_eq_step (fuel : Nat) (b : List Nat) :
    Resp.decodeBytes fuel b = Resp.decodeStep (decodeSelf fuel) b := by
  cases fuel <;> rfl

/-! ### Round trip: the decoder inverts the encoder -/

theorem decodeElemsAux_encoded (d : List Nat → DRes) :
    ∀ (l : List Resp) (parts : List Nat),
    (∀ v ∈ l, ∀ w, Resp.encoded v = some w → ∀ r2, d (w ++ r2) = .ok v r2) →
    Resp.encodedList l = some parts →
    ∀ rest, Resp.decodeElemsAux d l.length (parts ++ rest) = .okL l rest := by
  intro l
  induction l with
  | nil =>
    intro parts _ hl rest
    unfold Resp.encodedList at hl
    injection hl with h
    rw [← h]
    rfl
  | cons v0 t ih =>
    intro parts helem hl rest
    unfold Resp.encodedList at hl
    cases hv0 : Resp.encoded v0 with
    | none => rw [hv0] at hl; cases hl
    | some w0 =>
      rw [hv0] at hl
      cases hrest : Resp.encodedList t with
      | none => rw [hrest] at hl; cases hl
      | some prest =>
        rw [hrest] at hl
        injection hl with h
        rw [← h]
        show Resp.decodeElemsAux d (t.length + 1) ((w0 ++ prest) ++ rest) = .okL (v0 :: t) rest
        have e : (w0 ++ prest) ++ rest = w0 ++ (prest ++ rest) := by simp
        rw [e]
        unfold Resp.decodeElemsAux
        have h1 := helem v0 (by simp) w0 hv0 (prest ++ rest)
        have h2 := ih prest (fun v hv => helem v (List.mem_cons_of_mem v0 hv)) hrest rest
        simp only [h1, h2]

theorem decodeBytes_encoded : ∀ n v, rsize v ≤ n → strictGood v = true →
    ∀ w, Resp.encoded v = some w → ∀ rest fuel, rdepth v ≤ fuel →
    Resp.decodeBytes fuel (w ++ rest) = .ok v rest := by
  intro n
  induction n with
  | zero => intro v hv; have := rsize_pos v; omega
  | succ n ih =>
    intro v hv hg w hw rest fuel hf
    cases v with
    | simpleString s =>
      unfold Resp.encoded at hw
      by_cases hmem : LF ∈ s ∨ CR ∈ s
      · rw [if_pos hmem] at hw; cases hw
      · rw [if_neg hmem] at hw
        injection hw with h
        rw [← h]
        have e : (43 :: s ++ [CR, LF]) ++ rest = 43 :: (s ++ CR :: LF :: rest) := by simp
        rw [e, decodeBytes_eq_step]
        exact decodeStep_simpleString _ s rest (fun hc => hmem (Or.inr hc))
    | simpleError s =>
      unfold Resp.encoded at hw
      by_cases hmem : LF ∈ s ∨ CR ∈ s
      · rw [if_pos hmem] at hw; cases hw
      · rw [if_neg hmem] at hw
        injection hw with h
        rw [← h]
        have e : (45 :: s ++ [CR, LF]) ++ rest = 45 :: (s ++ CR :: LF :: rest) := by simp
        rw [e, decodeBytes_eq_step]
        exact decodeStep_simpleError _ s rest (fun hc => hmem (Or.inr hc))
    | integer i =>
      unfold Resp.encoded at hw
      injection hw with h
      rw [← h]
      have e : (58 :: intToBytes i ++ [CR, LF]) ++ rest
          = 58 :: (intToBytes i ++ CR :: LF :: rest) := by simp
      rw [e, decodeBytes_eq_step]
      exact decodeStep_integer _ i rest
    | bulkString b =>
      unfold Resp.encoded at hw
      by_cases hval : utf8Valid b = true
      · rw [if_pos hval] at hw
        injection hw with h
        rw [← h]
        have hbne : b ≠ [] := by
          have : (!b.isEmpty) = true := hg
          simpa [List.isEmpty_iff] using this
        have e : (36 :: natToBytes b.length ++ [CR, LF] ++ b ++ [CR, LF]) ++ rest
            = 36 :: (natToBytes b.length ++ CR :: LF :: (b ++ CR :: LF :: rest)) := by simp
        rw [e, decodeBytes_eq_step]
        exact decodeStep_bulkString _ b rest hbne
      · rw [if_neg hval] at hw; cases hw
    | null => simp [strictGood] at hg
    | boolean b =>
      unfold Resp.encoded at hw
      cases b
      · injection hw with h
        rw [← h]
        rw [decodeBytes_eq_step]
        exact decodeStep_boolean _ false rest
      · injection hw with h
        rw [← h]
        rw [decodeBytes_eq_step]
        exact decodeStep_boolean _ true rest
    | array l =>
      unfold Resp.encoded at hw
      cases hl : Resp.encodedList l with
      | none => rw [hl] at hw; cases hw
      | some parts =>
        rw [hl] at hw
        injection hw with h
        rw [← h]
        have hgl : strictGoodL l = true := hg
        have hd : rdepth (Resp.array l) = 1 + rdepthL l := rfl
        obtain ⟨f, rfl⟩ : ∃ f, fuel = f + 1 := ⟨fuel - 1, by omega⟩
        have helem : ∀ v2 ∈ l, ∀ w2, Resp.encoded v2 = some w2 → ∀ r2,
            Resp.decodeBytes f (w2 ++ r2) = .ok v2 r2 := by
          intro v2 hv2 w2 hw2 r2
          refine ih v2 ?_ (strictGoodL_mem v2 l hgl hv2) w2 hw2 r2 f ?_
          · have h1 := rsizeL_mem v2 l hv2
            have h2 : rsize (Resp.array l) = 1 + rsizeL l := rfl
            omega
          · have h1 := rdepthL_mem v2 l hv2
            omega
        have e : (42 :: natToBytes l.length ++ [CR, LF] ++ parts) ++ rest
            = 42 :: (natToBytes l.length ++ CR :: LF :: (parts ++ rest)) := by simp
        rw [e, decodeBytes_eq_step]
        unfold Resp.decodeStep
        norm_num
        rw [splitCRLF_append (natToBytes l.length) (parts ++ rest) (hasCRLF_natToBytes l.length)]
        simp only [parseUsize_natToBytes]
        have hself : decodeSelf (f + 1) = some (Resp.decodeBytes f) := rfl
        rw [hself]
        rw [drop_past_crlf]
        simp only [decodeElemsAux_encoded (Resp.decodeBytes f) l parts helem hl rest]


/-! ### Top-level round trip -/

theorem decode_encoded (v : Resp)
    (h : strictGood v = true ∨ v = .null ∨ v = .bulkString [])
    (w : List Nat) (hw : Resp.encoded v = some w) :
    Resp.decode w = .ok v := by
  rcases h with hg | rfl | rfl
  · unfold Resp.decode
    rw [if_pos (encoded_endsCRLF v w hw)]
    have hmain := decodeBytes_encoded (rsize v) v le_rfl hg w hw [] w.length
      (encoded_depth_le (rsize v) v le_rfl w hw)
    rw [List.append_nil] at hmain
    rw [hmain]
  · unfold Resp.encoded at hw
    injection hw with h
    rw [← h]
    rfl
  · have he : Resp.encoded (Resp.bulkString []) = some (bs "$0\r\n\r\n") := rfl
    rw [he] at hw
    injection hw with h
    rw [← h]
    rfl

/-! ### Association list lemmas -/

theorem alGet_alInsert_self {α : Type} (k : List Nat) (v : α) (m : List (List Nat × α)) :
    Redis.alGet k (Redis.alInsert k v m) = some v := by
  induction m with
  | nil => simp [Redis.alInsert, Redis.alGet]
  | cons kv t ih =>
    obtain ⟨k', v'⟩ := kv
    unfold Redis.alInsert
    by_cases h : k = k'
    · rw [if_pos h]
      simp [Redis.alGet]
    · rw [if_neg h]
      unfold Redis.alGet
      rw [if_neg h]
      exact ih

theorem alGet_alRemove_self {α : Type} (k : List Nat) (m : List (List Nat × α)) :
    Redis.alGet k (Redis.alRemove k m) = none := by
  induction m with
  | nil => rfl
  | cons kv t ih =>
    obtain ⟨k', v'⟩ := kv
    unfold Redis.alRemove at ih ⊢
    by_cases h : k' = k
    · rw [List.filter_cons]
      simp only [h]
      simpa using ih
    · rw [List.filter_cons]
      have : (!decide ((k', v').1 = k)) = true := by simpa using h
      rw [this]
      simp only [if_true]
      unfold Redis.alGet
      rw [if_neg (fun hh => h hh.symm)]
      exact ih

theorem alGet_mem_keys {α : Type} (k : List Nat) (v : α) (m : List (List Nat × α))
    (h : Redis.alGet k m = some v) :
    Resp.bulkString k ∈ m.map (fun kv => Resp.bulkString kv.1) := by
  induction m with
  | nil => cases h
  | cons kv t ih =>
    obtain ⟨k', v'⟩ := kv
    unfold Redis.alGet at h
    by_cases hk : k = k'
    · subst hk
      simp
    · rw [if_neg hk] at h
      simp only [List.map_cons, List.mem_cons]
      exact Or.inr (ih h)

/-! ### Claim theorems -/

/-- C1 (counterexample): the round-trip contract fails as stated.  The value
`Array [BulkString "", SimpleString "a"]` encodes successfully, but decoding
its encoding returns an error instead of the value: the decoder consumes
only the `$` byte of an empty bulk string, so the next element decode sees
the leftover `0` byte and fails. -/
theorem c1_counterexample :
    Resp.encoded (.array [.bulkString [], .simpleString (bs "a")])
      = some (bs "*2\r\n$0\r\n\r\n+a\r\n") ∧
    Resp.decode (bs "*2\r\n$0\r\n\r\n+a\r\n") = .err :=
  ⟨rfl, rfl⟩

/-- C1 (amended): over the modelled variant set (`Double` excluded — floats
are outside the embedding), `decode (encode v) = v` holds for every `v` that
is `Null`, an empty bulk string, or contains no `Null` and no empty bulk
string at any depth; an encodable value with a `Null` or empty bulk string
preceding further elements does not round-trip (see the counterexample). -/
theorem c1_round_trip (v : Resp)
    (h : strictGood v = true ∨ v = .null ∨ v = .bulkString [])
    (w : List Nat) (hw : Resp.encoded v = some w) :
    Resp.decode w = .ok v :=
  decode_encoded v h w hw

/-- Witness for C1 at a concrete nested value. -/
theorem c1_round_trip_witness :
    Resp.decode (bs "*5\r\n+hi\r\n:-42\r\n$2\r\nxy\r\n#t\r\n*1\r\n:0\r\n")
      = .ok (.array [.simpleString (bs "hi"), .integer (-42), .bulkString (bs "xy"),
          .boolean true, .array [.integer 0]]) :=
  c1_round_trip
    (.array [.simpleString (bs "hi"), .integer (-42), .bulkString (bs "xy"),
      .boolean true, .array [.integer 0]])
    (Or.inl rfl) (bs "*5\r\n+hi\r\n:-42\r\n$2\r\nxy\r\n#t\r\n*1\r\n:0\r\n") rfl

/-- C2: evaluation of `Resp::decode` at the claim's failure triggers.  A
missing terminator and an invalid declared length do return an error, but a
buffer shorter than a declared length PANICS (an array declaring one element
with none present unwraps an empty buffer; a bulk string declaring five
bytes with two present takes an out-of-range `split_at`), contradicting the
claim that decode returns a ProtocolError and does not crash there. -/
theorem c2_decode_failure_modes :
    Resp.decode (bs "*1\r\n") = .panic ∧
    Resp.decode (bs "$5\r\nab\r\n") = .panic ∧
    Resp.decode (bs "+abc") = .err ∧
    Resp.decode (bs "$ab\r\nxy\r\n") = .err :=
  ⟨rfl, rfl, rfl, rfl⟩

/-- C3: evaluation of `Redis::parse_command` at inputs with missing required
arguments, and of a SET with an unrecognized option name.  Every one panics
(out-of-bounds `args[i]`, `unwrap` on a missing iterator element, or
`todo!`) — there is no typed ArgumentError in the code — contradicting the
claim. -/
theorem c3_missing_args_panic :
    Redis.parse_command (.bulkString (bs "echo")) [] = .panic ∧
    Redis.parse_command (.bulkString (bs "get")) [] = .panic ∧
    Redis.parse_command (.bulkString (bs "keys")) [] = .panic ∧
    Redis.parse_command (.bulkString (bs "config")) [.bulkString (bs "get")] = .panic ∧
    Redis.parse_command (.bulkString (bs "set")) [.bulkString (bs "k")] = .panic ∧
    Redis.parse_command (.bulkString (bs "set"))
      [.bulkString (bs "k"), .bulkString (bs "v"), .bulkString (bs "ex"),
        .bulkString (bs "10")] = .panic :=
  ⟨rfl, rfl, rfl, rfl, rfl, rfl⟩

/-- C5: `Redis::set` semantics.  With a `PX m` option the absolute deadline
`now + m` is recorded for the key; with no options any existing deadline for
the key is removed; in both cases the key is inserted/overwritten in the
keyspace and the reply is the `OK` status — so a second SET without PX
clears the expiry a first SET with PX recorded. -/
theorem c5_set_semantics :
    (∀ (st : Redis.RedisState) (now : Nat) (k v ms : _) (mstr : List Nat),
      parseUsize mstr = some ms →
      Redis.handle_command st now (.set k v [(bs "px", some mstr)]) =
        some (.simpleString (bs "OK"),
          { store := Redis.alInsert k (.string v) st.store,
            expiry_table := Redis.alInsert k (now + ms) st.expiry_table,
            config := st.config }) ∧
      Redis.alGet k (Redis.alInsert k (now + ms) st.expiry_table) = some (now + ms)) ∧
    (∀ (st : Redis.RedisState) (now : Nat) (k v : _),
      Redis.handle_command st now (.set k v []) =
        some (.simpleString (bs "OK"),
          { store := Redis.alInsert k (.string v) st.store,
            expiry_table := Redis.alRemove k st.expiry_table,
            config := st.config }) ∧
      Redis.alGet k (Redis.alRemove k st.expiry_table) = none) := by
  constructor
  · intro st now k v ms mstr hms
    constructor
    · simp [Redis.handle_command, Redis.set, Redis.optionsExpiry, hms]
    · exact alGet_alInsert_self k (now + ms) st.expiry_table
  · intro st now k v
    exact ⟨rfl, alGet_alRemove_self k st.expiry_table⟩

/-- Witness for C5 at a concrete state and option string. -/
theorem c5_set_semantics_witness :
    Redis.handle_command ⟨[], [], []⟩ 50 (.set (bs "foo") (bs "bar")
        [(bs "px", some (bs "100"))]) =
      some (.simpleString (bs "OK"),
        { store := Redis.alInsert (bs "foo") (.string (bs "bar")) [],
          expiry_table := Redis.alInsert (bs "foo") (50 + 100) [],
          config := [] }) :=
  (c5_set_semantics.1 ⟨[], [], []⟩ 50 (bs "foo") (bs "bar") 100 (bs "100") rfl).1

/-- C6 (counterexample): with key `foo` holding value `bar` and deadline
100, a GET at `now = 100` — the instant now equals the deadline — returns
the stored value, not Null: the code expires only when the deadline is
STRICTLY below now. -/
theorem c6_counterexample :
    Redis.get ⟨[(bs "foo", .string (bs "bar"))], [(bs "foo", 100)], []⟩ 100 (bs "foo")
      = .bulkString (bs "bar") ∧
    Redis.get ⟨[(bs "foo", .string (bs "bar"))], [(bs "foo", 100)], []⟩ 100 (bs "foo")
      ≠ .null := by
  refine ⟨rfl, fun h => ?_⟩
  rw [show Redis.get ⟨[(bs "foo", .string (bs "bar"))], [(bs "foo", 100)], []⟩ 100 (bs "foo")
      = Resp.bulkString (bs "bar") from rfl] at h
  exact Resp.noConfusion h

/-- C6 (amended): `Redis::get` replies Null exactly when the expiry table
holds a deadline STRICTLY before now (lazy read-time expiry); when the
deadline equals now or lies in the future, and when no deadline exists, the
reply is the stored value (Null when the key is absent from the store). -/
theorem c6_expiry_strict (st : Redis.RedisState) (now : Nat) (k : List Nat) :
    (∀ e, Redis.alGet k st.expiry_table = some e → e < now →
      Redis.get st now k = .null) ∧
    (∀ e, Redis.alGet k st.expiry_table = some e → now ≤ e →
      Redis.get st now k =
        (match Redis.alGet k st.store with
         | some (.string v) => Resp.bulkString v
         | none => Resp.null)) ∧
    (Redis.alGet k st.expiry_table = none →
      Redis.get st now k =
        (match Redis.alGet k st.store with
         | some (.string v) => Resp.bulkString v
         | none => Resp.null)) := by
  refine ⟨fun e he hlt => ?_, fun e he hle => ?_, fun he => ?_⟩
  · simp only [Redis.get, he]
    simp [hlt]
  · simp only [Redis.get, he]
    simp [Nat.not_lt.mpr hle]
  · simp only [Redis.get, he]
    simp

/-- Witness for C6 (amended) at concrete states on both sides of the
deadline and with no deadline. -/
theorem c6_expiry_strict_witness :
    Redis.get ⟨[(bs "a", .string (bs "x"))], [(bs "a", 10)], []⟩ 11 (bs "a") = .null ∧
    Redis.get ⟨[(bs "a", .string (bs "x"))], [(bs "a", 10)], []⟩ 10 (bs "a")
      = .bulkString (bs "x") ∧
    Redis.get ⟨[(bs "a", .string (bs "x"))], [], []⟩ 99 (bs "a") = .bulkString (bs "x") :=
  ⟨(c6_expiry_strict ⟨[(bs "a", .string (bs "x"))], [(bs "a", 10)], []⟩ 11 (bs "a")).1
      10 rfl (by omega),
   (c6_expiry_strict ⟨[(bs "a", .string (bs "x"))], [(bs "a", 10)], []⟩ 10 (bs "a")).2.1
      10 rfl (by omega),
   (c6_expiry_strict ⟨[(bs "a", .string (bs "x"))], [], []⟩ 99 (bs "a")).2.2 rfl⟩

/-- C7: snapshot loading.  A missing file yields empty keyspace and expiry
tables (not an error); a file of magic + version + end sentinel yields the
empty store; a file with one string-record opcode for key `k` / value `v`
yields a store mapping `k` to `v`, with no expiry recorded for `k`, and an
immediate GET of `k` at any time returns `v`. -/
theorem c7_snapshot_loading :
    Rdb.load_pair none = some ([], []) ∧
    Rdb.load_pair (some (bs "REDIS0011" ++ [255])) = some ([], []) ∧
    Rdb.load_pair (some (bs "REDIS0011" ++ [0, 1, 107, 1, 118, 255])) =
      some ([(bs "k", .string (bs "v"))], []) ∧
    Redis.alGet (bs "k") ([] : List (List Nat × Nat)) = none ∧
    (∀ now, Redis.get ⟨[(bs "k", .string (bs "v"))], [], []⟩ now (bs "k")
      = .bulkString (bs "v")) :=
  ⟨rfl, rfl, rfl, rfl, fun _ => rfl⟩

/-- C8: the "special" (tag 11) integer-literal decode reads its bytes from
the START of the buffer, not from the cursor.  With buffer `[9, 7]` and
cursor 1, the 8-bit form renders `"9"` (byte 0) rather than `"7"` (the byte
at the cursor); the 16-bit form over `[1, 2, 50, 60]` at cursor 2 renders
`258 = 1*256+2` from bytes 0-1; the 32-bit form likewise reads bytes 0-3.
The cursor is advanced by the literal's width each time. -/
theorem c8_integer_literal_reads_origin :
    Rdb.decode_from (.encoded 0) [9, 7] 1 = some (bs "9", 2) ∧
    Rdb.decode_from (.encoded 1) [1, 2, 50, 60] 2 = some (bs "258", 4) ∧
    Rdb.decode_from (.encoded 2) [1, 0, 0, 0, 9, 9, 9, 9] 4 = some (bs "1", 8) :=
  ⟨rfl, rfl, rfl⟩

/-- C10: handling a GET never mutates the store state: the reply is computed
from the state and the state is returned unchanged — even for an expired
key, which replies Null while remaining in both the keyspace and the expiry
table, so that a subsequent KEYS still lists it. -/
theorem c10_get_pure :
    (∀ (st : Redis.RedisState) (now : Nat) (k : List Nat),
      Redis.handle_command st now (.get k) = some (Redis.get st now k, st)) ∧
    (∀ (st : Redis.RedisState) (now : Nat) (k : List Nat) (e : Nat) (v : Redis.RedisValue),
      Redis.alGet k st.expiry_table = some e → e < now →
      Redis.alGet k st.store = some v →
      Redis.handle_command st now (.get k) = some (.null, st) ∧
      (∀ pat, Redis.handle_command st now (.keys pat) =
        some (.array (st.store.map (fun kv => Resp.bulkString kv.1)), st)) ∧
      Resp.bulkString k ∈ st.store.map (fun kv => Resp.bulkString kv.1)) := by
  refine ⟨fun st now k => rfl, fun st now k e v he hlt hv => ⟨?_, fun pat => rfl, ?_⟩⟩
  · simp only [Redis.handle_command, Redis.get, he]
    simp [hlt]
  · exact alGet_mem_keys k v st.store hv

/-- Witness for C10 at a concrete expired key. -/
theorem c10_get_pure_witness :
    Redis.handle_command ⟨[(bs "a", .string (bs "x"))], [(bs "a", 10)], []⟩ 11 (.get (bs "a"))
      = some (.null, ⟨[(bs "a", .string (bs "x"))], [(bs "a", 10)], []⟩) ∧
    Resp.bulkString (bs "a") ∈
      ([(bs "a", Redis.RedisValue.string (bs "x"))]).map (fun kv => Resp.bulkString kv.1) :=
  ⟨(c10_get_pure.2 ⟨[(bs "a", .string (bs "x"))], [(bs "a", 10)], []⟩ 11 (bs "a") 10
      (.string (bs "x")) rfl (by omega) rfl).1,
   (c10_get_pure.2 ⟨[(bs "a", .string (bs "x"))], [(bs "a", 10)], []⟩ 11 (bs "a") 10
      (.string (bs "x")) rfl (by omega) rfl).2.2⟩

/-- C4: a command name outside the fixed six-entry table (compared after
lowercasing) parses to `NotImplemented` carrying that name — the argument
list is never inspected, so nothing fails — and the store's reply to
`NotImplemented` is an error value naming the unsupported command, with the
state unchanged: a normal, recoverable outcome. -/
theorem c4_unknown_command (cmd : Resp) (args : List Resp) (st : Redis.RedisState) (now : Nat)
    (h1 : toLowerBytes (Resp.toDisplay cmd) ≠ bs "ping")
    (h2 : toLowerBytes (Resp.toDisplay cmd) ≠ bs "echo")
    (h3 : toLowerBytes (Resp.toDisplay cmd) ≠ bs "set")
    (h4 : toLowerBytes (Resp.toDisplay cmd) ≠ bs "get")
    (h5 : toLowerBytes (Resp.toDisplay cmd) ≠ bs "config")
    (h6 : toLowerBytes (Resp.toDisplay cmd) ≠ bs "keys") :
    Redis.parse_command cmd args = .ok (.notImplemented (toLowerBytes (Resp.toDisplay cmd))) ∧
    Redis.handle_command st now (.notImplemented (toLowerBytes (Resp.toDisplay cmd))) =
      some (.simpleError (bs "ERR command '" ++ toLowerBytes (Resp.toDisplay cmd)
        ++ bs "' not implemented yet"), st) := by
  constructor
  · simp only [Redis.parse_command, if_neg h1, if_neg h2, if_neg h3, if_neg h4,
      if_neg h5, if_neg h6]
  · rfl

/-- Witness for C4 at the unknown command `flushall`. -/
theorem c4_unknown_command_witness :
    Redis.parse_command (.bulkString (bs "flushall")) [] =
      .ok (.notImplemented (bs "flushall")) ∧
    Redis.handle_command ⟨[], [], []⟩ 0 (.notImplemented (bs "flushall")) =
      some (.simpleError (bs "ERR command 'flushall' not implemented yet"),
        ⟨[], [], []⟩) := by
  have h := c4_unknown_command (.bulkString (bs "flushall")) [] ⟨[], [], []⟩ 0
    (by decide) (by decide) (by decide) (by decide) (by decide) (by decide)
  exact ⟨h.1, h.2⟩

/-! ### Lowercasing lemmas for the message handler -/

theorem toLowerBytes_nil : toLowerBytes [] = [] := rfl

theorem toLowerBytes_cons (x : Nat) (l : List Nat) :
    toLowerBytes (x :: l) = (if 65 ≤ x && x ≤ 90 then x + 32 else x) :: toLowerBytes l := rfl

theorem toLowerBytes_append (a b : List Nat) :
    toLowerBytes (a ++ b) = toLowerBytes a ++ toLowerBytes b := List.map_append _ a b

theorem toLowerBytes_length (l : List Nat) : (toLowerBytes l).length = l.length :=
  List.length_map l _

theorem toLowerBytes_natToBytes (n : Nat) : toLowerBytes (natToBytes n) = natToBytes n := by
  unfold toLowerBytes
  have h : ∀ b ∈ natToBytes n, (if 65 ≤ b && b ≤ 90 then b + 32 else b) = b := by
    intro b hb
    have hd := natToBytes_all_digits n b hb
    simp only [isDigit, Bool.and_eq_true, decide_eq_true_eq] at hd
    rw [if_neg (by simp; omega)]
  calc (natToBytes n).map _ = (natToBytes n).map id := List.map_congr_left h
    _ = natToBytes n := List.map_id _

theorem toLowerBytes_ascii (l : List Nat) (h : ∀ x ∈ l, x ≤ 127) :
    ∀ x ∈ toLowerBytes l, x ≤ 127 := by
  intro x hx
  unfold toLowerBytes at hx
  obtain ⟨y, hy, rfl⟩ := List.mem_map.mp hx
  have hy127 := h y hy
  by_cases hc : (65 ≤ y && y ≤ 90) = true
  · rw [if_pos hc]
    simp only [Bool.and_eq_true, decide_eq_true_eq] at hc
    omega
  · rw [if_neg hc]
    exact hy127

theorem toLowerBytes_ne_nil (l : List Nat) (h : l ≠ []) : toLowerBytes l ≠ [] := by
  unfold toLowerBytes
  simpa [List.map_eq_nil_iff] using h

theorem utf8Valid_cons_ascii (b : Nat) (t : List Nat) (hb : b ≤ 127) :
    utf8Valid (b :: t) = utf8Valid t := by
  show (if b ≤ 127 then utf8Valid t else utf8ValidMB b t) = utf8Valid t
  rw [if_pos hb]

theorem utf8Valid_of_ascii (l : List Nat) (h : ∀ x ∈ l, x ≤ 127) : utf8Valid l = true := by
  induction l with
  | nil => rfl
  | cons b t ih =>
    rw [utf8Valid_cons_ascii b t (h b (List.mem_cons_self b t))]
    exact ih (fun x hx => h x (List.mem_cons_of_mem b hx))

theorem encoded_bulk_ascii (b : List Nat) (hb : ∀ x ∈ b, x ≤ 127) :
    Resp.encoded (.bulkString b)
      = some (36 :: natToBytes b.length ++ [CR, LF] ++ b ++ [CR, LF]) := by
  unfold Resp.encoded
  rw [if_pos (utf8Valid_of_ascii b hb)]

theorem toLower_encoded_bulk (b : List Nat) :
    toLowerBytes (36 :: natToBytes b.length ++ [CR, LF] ++ b ++ [CR, LF])
      = 36 :: natToBytes (toLowerBytes b).length ++ [CR, LF] ++ toLowerBytes b ++ [CR, LF] := by
  rw [show (36 :: natToBytes b.length ++ [CR, LF] ++ b ++ [CR, LF] : List Nat)
      = 36 :: (natToBytes b.length ++ ([CR, LF] ++ (b ++ [CR, LF]))) by simp]
  rw [toLowerBytes_cons, toLowerBytes_append, toLowerBytes_append, toLowerBytes_append,
    toLowerBytes_natToBytes, toLowerBytes_length]
  have hCRLF : toLowerBytes [CR, LF] = [CR, LF] := rfl
  rw [hCRLF]
  simp [CR, LF]

theorem toLower_encodedList_bulks : ∀ (bl : List (List Nat)),
    (∀ b ∈ bl, ∀ x ∈ b, x ≤ 127) → ∀ parts,
    Resp.encodedList (bl.map Resp.bulkString) = some parts →
    Resp.encodedList ((bl.map toLowerBytes).map Resp.bulkString) = some (toLowerBytes parts) := by
  intro bl
  induction bl with
  | nil =>
    intro _ parts hl
    unfold Resp.encodedList at hl
    injection hl with h
    rw [← h]
    rfl
  | cons b bl' ih =>
    intro hascii parts hl
    have hb : ∀ x ∈ b, x ≤ 127 := hascii b (by simp)
    have he := encoded_bulk_ascii b hb
    have he2 := encoded_bulk_ascii (toLowerBytes b) (toLowerBytes_ascii b hb)
    simp only [List.map_cons] at hl ⊢
    unfold Resp.encodedList at hl
    rw [he] at hl
    cases hrest : Resp.encodedList (bl'.map Resp.bulkString) with
    | none => rw [hrest] at hl; cases hl
    | some prest =>
      rw [hrest] at hl
      injection hl with h
      have ih2 := ih (fun x hx => hascii x (List.mem_cons_of_mem b hx)) prest hrest
      unfold Resp.encodedList
      rw [he2, ih2, ← h, toLowerBytes_append, toLower_encoded_bulk]

theorem toLower_encoded_bulk_array (bl : List (List Nat))
    (hascii : ∀ b ∈ bl, ∀ x ∈ b, x ≤ 127) (w : List Nat)
    (hw : Resp.encoded (.array (bl.map Resp.bulkString)) = some w) :
    Resp.encoded (.array ((bl.map toLowerBytes).map Resp.bulkString))
      = some (toLowerBytes w) := by
  unfold Resp.encoded at hw ⊢
  cases hl : Resp.encodedList (bl.map Resp.bulkString) with
  | none => rw [hl] at hw; cases hw
  | some parts =>
    rw [hl] at hw
    injection hw with h
    rw [toLower_encodedList_bulks bl hascii parts hl]
    rw [← h]
    rw [show (42 :: natToBytes (bl.map Resp.bulkString).length ++ [CR, LF] ++ parts : List Nat)
        = 42 :: (natToBytes (bl.map Resp.bulkString).length ++ ([CR, LF] ++ parts)) by simp]
    rw [toLowerBytes_cons, toLowerBytes_append, toLowerBytes_natToBytes, toLowerBytes_append]
    have hCRLF : toLowerBytes [CR, LF] = [CR, LF] := rfl
    rw [hCRLF]
    simp [List.length_map]

/-- C9: `Redis::handle_message` lowercases the ENTIRE raw wire message
before decoding it.  Consequently a SET stores the lowercased key and value,
an ECHO returns the lowercased message, and a GET and a CONFIG GET look up
the lowercased key — a client sending an uppercase byte in a value or
message never gets it back uppercase.  (Payloads are constrained to ASCII,
where the byte-level model of Rust's Unicode `to_lowercase` is exact.) -/
theorem c9_lowercases_input :
    (∀ (st : Redis.RedisState) (now : Nat) (key value msg : List Nat),
      key ≠ [] → value ≠ [] →
      (∀ x ∈ key, x ≤ 127) → (∀ x ∈ value, x ≤ 127) →
      Resp.encoded (.array [.bulkString (bs "SET"), .bulkString key, .bulkString value])
        = some msg →
      Redis.handle_message st now msg =
        some (bs "+OK\r\n",
          { store := Redis.alInsert (toLowerBytes key)
              (.string (toLowerBytes value)) st.store,
            expiry_table := Redis.alRemove (toLowerBytes key) st.expiry_table,
            config := st.config })) ∧
    (∀ (st : Redis.RedisState) (now : Nat) (m msg : List Nat),
      m ≠ [] → (∀ x ∈ m, x ≤ 127) →
      Resp.encoded (.array [.bulkString (bs "ECHO"), .bulkString m]) = some msg →
      Redis.handle_message st now msg =
        some (bs "$" ++ natToBytes m.length ++ bs "\r\n" ++ toLowerBytes m ++ bs "\r\n",
          st)) ∧
    (∀ (st : Redis.RedisState) (now : Nat) (key msg : List Nat),
      key ≠ [] → (∀ x ∈ key, x ≤ 127) →
      Resp.encoded (.array [.bulkString (bs "GET"), .bulkString key]) = some msg →
      Redis.handle_message st now msg =
        (Resp.encoded (Redis.get st now (toLowerBytes key))).map (fun out => (out, st))) ∧
    (∀ (st : Redis.RedisState) (now : Nat) (key msg : List Nat),
      key ≠ [] → (∀ x ∈ key, x ≤ 127) →
      Resp.encoded (.array [.bulkString (bs "CONFIG"), .bulkString (bs "GET"),
        .bulkString key]) = some msg →
      Redis.handle_message st now msg =
        (Resp.encoded (match Redis.alGet (toLowerBytes key) st.config with
          | some v => Resp.array [.bulkString (toLowerBytes key), .bulkString v]
          | none => Resp.null)).map (fun out => (out, st))) := by
  refine ⟨?_, ?_, ?_, ?_⟩
  · intro st now key value msg hk hv hak hav hmsg
    have hascii : ∀ b ∈ [bs "SET", key, value], ∀ x ∈ b, x ≤ 127 := by
      intro b hb
      simp only [List.mem_cons, List.not_mem_nil, or_false] at hb
      rcases hb with rfl | rfl | rfl
      · intro x hx; revert x hx; decide
      · exact hak
      · exact hav
    have hlowmsg := toLower_encoded_bulk_array [bs "SET", key, value] hascii msg hmsg
    have hmap : (([bs "SET", key, value].map toLowerBytes).map Resp.bulkString)
        = [Resp.bulkString (bs "set"), Resp.bulkString (toLowerBytes key),
            Resp.bulkString (toLowerBytes value)] := by
      simp only [List.map_cons, List.map_nil]
      rw [show toLowerBytes (bs "SET") = bs "set" from rfl]
    rw [hmap] at hlowmsg
    have h1 := toLowerBytes_ne_nil key hk
    have h2 := toLowerBytes_ne_nil value hv
    have hgood : strictGood (.array [Resp.bulkString (bs "set"),
        Resp.bulkString (toLowerBytes key), Resp.bulkString (toLowerBytes value)]) = true := by
      simp [strictGood, strictGoodL, List.isEmpty_iff]
      exact ⟨by decide, h1, h2⟩
    have hdec := decode_encoded _ (Or.inl hgood) _ hlowmsg
    unfold Redis.handle_message
    rw [hdec]
    rfl
  · intro st now m msg hm ham hmsg
    have hascii : ∀ b ∈ [bs "ECHO", m], ∀ x ∈ b, x ≤ 127 := by
      intro b hb
      simp only [List.mem_cons, List.not_mem_nil, or_false] at hb
      rcases hb with rfl | rfl
      · intro x hx; revert x hx; decide
      · exact ham
    have hlowmsg := toLower_encoded_bulk_array [bs "ECHO", m] hascii msg hmsg
    have hmap : (([bs "ECHO", m].map toLowerBytes).map Resp.bulkString)
        = [Resp.bulkString (bs "echo"), Resp.bulkString (toLowerBytes m)] := by
      simp only [List.map_cons, List.map_nil]
      rw [show toLowerBytes (bs "ECHO") = bs "echo" from rfl]
    rw [hmap] at hlowmsg
    have h1 := toLowerBytes_ne_nil m hm
    have hgood : strictGood (.array [Resp.bulkString (bs "echo"),
        Resp.bulkString (toLowerBytes m)]) = true := by
      simp [strictGood, strictGoodL, List.isEmpty_iff]
      exact ⟨by decide, h1⟩
    have hdec := decode_encoded _ (Or.inl hgood) _ hlowmsg
    unfold Redis.handle_message
    rw [hdec]
    show (match Resp.encoded (Resp.bulkString (toLowerBytes m)) with
          | none => none
          | some out => some (out, st))
        = some (bs "$" ++ natToBytes m.length ++ bs "\r\n" ++ toLowerBytes m ++ bs "\r\n", st)
    rw [encoded_bulk_ascii (toLowerBytes m) (toLowerBytes_ascii m ham)]
    simp only [toLowerBytes_length]
    rfl
  · intro st now key msg hk hak hmsg
    have hascii : ∀ b ∈ [bs "GET", key], ∀ x ∈ b, x ≤ 127 := by
      intro b hb
      simp only [List.mem_cons, List.not_mem_nil, or_false] at hb
      rcases hb with rfl | rfl
      · intro x hx; revert x hx; decide
      · exact hak
    have hlowmsg := toLower_encoded_bulk_array [bs "GET", key] hascii msg hmsg
    have hmap : (([bs "GET", key].map toLowerBytes).map Resp.bulkString)
        = [Resp.bulkString (bs "get"), Resp.bulkString (toLowerBytes key)] := by
      simp only [List.map_cons, List.map_nil]
      rw [show toLowerBytes (bs "GET") = bs "get" from rfl]
    rw [hmap] at hlowmsg
    have h1 := toLowerBytes_ne_nil key hk
    have hgood : strictGood (.array [Resp.bulkString (bs "get"),
        Resp.bulkString (toLowerBytes key)]) = true := by
      simp [strictGood, strictGoodL, List.isEmpty_iff]
      exact ⟨by decide, h1⟩
    have hdec := decode_encoded _ (Or.inl hgood) _ hlowmsg
    unfold Redis.handle_message
    rw [hdec]
    show (match Resp.encoded (Redis.get st now (toLowerBytes key)) with
          | none => none
          | some out => some (out, st))
        = (Resp.encoded (Redis.get st now (toLowerBytes key))).map (fun out => (out, st))
    cases Resp.encoded (Redis.get st now (toLowerBytes key)) <;> rfl
  · intro st now key msg hk hak hmsg
    have hascii : ∀ b ∈ [bs "CONFIG", bs "GET", key], ∀ x ∈ b, x ≤ 127 := by
      intro b hb
      simp only [List.mem_cons, List.not_mem_nil, or_false] at hb
      rcases hb with rfl | rfl | rfl
      · intro x hx; revert x hx; decide
      · intro x hx; revert x hx; decide
      · exact hak
    have hlowmsg := toLower_encoded_bulk_array [bs "CONFIG", bs "GET", key] hascii msg hmsg
    have hmap : (([bs "CONFIG", bs "GET", key].map toLowerBytes).map Resp.bulkString)
        = [Resp.bulkString (bs "config"), Resp.bulkString (bs "get"),
            Resp.bulkString (toLowerBytes key)] := by
      simp only [List.map_cons, List.map_nil]
      rw [show toLowerBytes (bs "CONFIG") = bs "config" from rfl,
        show toLowerBytes (bs "GET") = bs "get" from rfl]
    rw [hmap] at hlowmsg
    have h1 := toLowerBytes_ne_nil key hk
    have hgood : strictGood (.array [Resp.bulkString (bs "config"),
        Resp.bulkString (bs "get"), Resp.bulkString (toLowerBytes key)]) = true := by
      simp [strictGood, strictGoodL, List.isEmpty_iff]
      exact ⟨by decide, by decide, h1⟩
    have hdec := decode_encoded _ (Or.inl hgood) _ hlowmsg
    unfold Redis.handle_message
    rw [hdec]
    show (match (match Redis.alGet (toLowerBytes key) st.config with
            | some v => some (Resp.array [Resp.bulkString (toLowerBytes key),
                Resp.bulkString v], st)
            | none => some (Resp.null, st)) with
          | none => none
          | some (resp, st') =>
            match Resp.encoded resp with
            | none => none
            | some out => some (out, st'))
        = (Resp.encoded (match Redis.alGet (toLowerBytes key) st.config with
            | some v => Resp.array [Resp.bulkString (toLowerBytes key), Resp.bulkString v]
            | none => Resp.null)).map (fun out => (out, st))
    cases Redis.alGet (toLowerBytes key) st.config with
    | none => rfl
    | some v =>
      show (match Resp.encoded (Resp.array [Resp.bulkString (toLowerBytes key),
              Resp.bulkString v]) with
            | none => none
            | some out => some (out, st))
          = (Resp.encoded (Resp.array [Resp.bulkString (toLowerBytes key),
              Resp.bulkString v])).map (fun out => (out, st))
      cases Resp.encoded (Resp.array [Resp.bulkString (toLowerBytes key),
        Resp.bulkString v]) <;> rfl

/-- Witness for C9: `SET FoO BaR` stores key `foo` with value `bar`, and
`CONFIG GET DiR` against a config holding `dir -> /tmp` replies the
`["dir", "/tmp"]` pair — the lowercased key was looked up. -/
theorem c9_lowercases_input_witness :
    (Redis.handle_message ⟨[], [], []⟩ 0 (bs "*3\r\n$3\r\nSET\r\n$3\r\nFoO\r\n$3\r\nBaR\r\n") =
      some (bs "+OK\r\n",
        { store := Redis.alInsert (bs "foo") (.string (bs "bar"))
            ([] : List (List Nat × Redis.RedisValue)),
          expiry_table := Redis.alRemove (bs "foo") ([] : List (List Nat × Nat)),
          config := [] })) ∧
    (Redis.handle_message ⟨[], [], [(bs "dir", bs "/tmp")]⟩ 0
        (bs "*3\r\n$6\r\nCONFIG\r\n$3\r\nGET\r\n$3\r\nDiR\r\n") =
      some (bs "*2\r\n$3\r\ndir\r\n$4\r\n/tmp\r\n", ⟨[], [], [(bs "dir", bs "/tmp")]⟩)) :=
  ⟨c9_lowercases_input.1 ⟨[], [], []⟩ 0 (bs "FoO") (bs "BaR")
    (bs "*3\r\n$3\r\nSET\r\n$3\r\nFoO\r\n$3\r\nBaR\r\n")
    (by decide) (by decide) (by decide) (by decide) rfl,
   c9_lowercases_input.2.2.2 ⟨[], [], [(bs "dir", bs "/tmp")]⟩ 0 (bs "DiR")
    (bs "*3\r\n$6\r\nCONFIG\r\n$3\r\nGET\r\n$3\r\nDiR\r\n")
    (by decide) (by decide) rfl⟩
